import Mathlib

/-!
# Verification of the Chronicle chapter pipeline

Shallow embedding of the placeholder extractor (`scripts/baidu_image_search.py`,
`extract_image_placeholders`), the chapter assembler's image-substitution loop
(`scripts/generate_chapter.py`, `ChapterGenerator._process_images`), the
next-chapter selection (`_get_next_chapter_to_generate`) and the CLI exit-code
skeleton (`main`).

Strings are modelled as `List Char`; Python's `str.strip`, `str.replace(old,
new, 1)` and the regular-expression scans are translated operationally below.
-/

set_option maxHeartbeats 1000000

namespace Chronicle

/-- The characters stripped by Python's `str.strip()` (characters `c` with
`c.isspace()`). -/
def pyWhitespaceChars : List Char :=
  [' ', '\t', '\n', '\x0b', '\x0c', '\r',
   '\x1c', '\x1d', '\x1e', '\x1f', '\x85', '\xa0',
   '\u1680',
   '\u2000',
   '\u2001',
   '\u2002',
   '\u2003',
   '\u2004',
   '\u2005',
   '\u2006',
   '\u2007',
   '\u2008',
   '\u2009',
   '\u200a',
   '\u2028',
   '\u2029',
   '\u202f',
   '\u205f',
   '\u3000']

def pyIsSpace (c : Char) : Bool := pyWhitespaceChars.contains c

/-- Python `str.strip()`: drop leading and trailing whitespace. -/
def pyStrip (s : List Char) : List Char :=
  ((s.dropWhile pyIsSpace).reverse.dropWhile pyIsSpace).reverse

/-- One match attempt of the regular expression `__([^_]+)__` at the head of
`s` (the semantics of Python's `re` here: after `__`, the greedy `[^_]+` takes
the maximal run of non-underscore characters, and the match succeeds exactly
when that run is non-empty and is followed by `__`).  Returns the inner group.
-/
def tryMatch (s : List Char) : Option (List Char) :=
  match s with
  | '_' :: '_' :: rest =>
    if (rest.takeWhile (fun c => c ≠ '_')).isEmpty then none
    else
      match rest.drop (rest.takeWhile (fun c => c ≠ '_')).length with
      | '_' :: '_' :: _ => some (rest.takeWhile (fun c => c ≠ '_'))
      | _ => none
  | _ => none

/-- Fuel-indexed version of the `finditer` scan (the fuel makes the
definition structurally recursive and hence kernel-computable; `scan` below
instantiates the fuel with the string length, which always suffices since
every step consumes at least one character). -/
def scanF : Nat → List Char → Nat → List (Nat × List Char)
  | 0, _, _ => []
  | _ + 1, [], _ => []
  | f + 1, c :: rest, pos =>
    match tryMatch (c :: rest) with
    | some inner =>
      (pos, inner) :: scanF f (rest.drop (inner.length + 3)) (pos + inner.length + 4)
    | none => scanF f rest (pos + 1)

/-- `re.finditer(r'__([^_]+)__', content)`: scan left to right; at each
position attempt a match; on success record `(position, inner group)` and
resume after the whole match (which has length `inner.length + 4`). -/
def scan (s : List Char) (pos : Nat) : List (Nat × List Char) :=
  scanF s.length s pos

/-- One extracted placeholder.  `keyword` is the trimmed inner group, `path`
the full delimited match (the dict field `"path"`), `index` the 1-based
sequence index added after sorting.  The match position is kept from the
`(position, info)` tuples of the source (the final Python dict drops it). -/
structure Placeholder where
  keyword : List Char
  path : List Char
  index : Nat
  pos : Nat
deriving DecidableEq, Repr

/-- The `placeholder_positions` list: matches whose stripped keyword is
non-empty, as `(position, keyword, full token)`. -/
def placeholderPositions (content : List Char) : List (Nat × List Char × List Char) :=
  (scan content 0).filterMap fun pi =>
    let keyword := pyStrip pi.2
    if keyword.isEmpty then none
    else some (pi.1, keyword, '_' :: '_' :: (pi.2 ++ ['_', '_']))

/-- Stable insertion (ascending by position) used to model
`placeholder_positions.sort(key=lambda x: x[0])`. -/
def insertByPos (x : Nat × List Char × List Char) :
    List (Nat × List Char × List Char) → List (Nat × List Char × List Char)
  | [] => [x]
  | y :: ys => if x.1 ≤ y.1 then x :: y :: ys else y :: insertByPos x ys

def sortByPos : List (Nat × List Char × List Char) → List (Nat × List Char × List Char)
  | [] => []
  | x :: xs => insertByPos x (sortByPos xs)

/-- `extract_image_placeholders`: collect matches, keep those with non-empty
trimmed keyword, sort by document position, and number them `1..N`. -/
def extract_image_placeholders (content : List Char) : List Placeholder :=
  (sortByPos (placeholderPositions content)).enum.map fun ip =>
    { keyword := ip.2.2.1, path := ip.2.2.2, index := ip.1 + 1, pos := ip.2.1 }

/-- A chapter descriptor from the plan (`chapters_plan.json`). -/
structure Chapter where
  id : Int
  title : List Char
  period : List Char
  keywords : List (List Char)
deriving DecidableEq, Repr

/-- The `images` section of the configuration.  Fields are optional because the
source reads them with `dict.get` and per-use defaults. -/
structure ImagesConfig where
  enabled : Option Bool
  search_source : Option (List Char)
  image_dir : Option (List Char)
deriving DecidableEq, Repr

/-- Lines 349-358 of `generate_chapter.py`: the search keyword for one
placeholder: its stripped keyword if non-empty, else a chapter keyword chosen
by `(index - 1) % len(keywords)` (Python modulo, i.e. `Int.emod`), else the
literal `"历史"`. -/
def searchKeyword (p : Placeholder) (chapter : Chapter) : List Char :=
  let sk := pyStrip p.keyword
  if sk.isEmpty then
    if chapter.keywords.isEmpty then "历史".toList
    else chapter.keywords.getD ((((p.index : Int) - 1) % (chapter.keywords.length : Int)).toNat) []
  else sk

/-- The replacement text `f"![{search_keyword}]({image_url})"`. -/
def imageMarkdown (kw url : List Char) : List Char :=
  '!' :: '[' :: (kw ++ ']' :: '(' :: (url ++ [')']))

/-- Python `s.replace(old, new, 1)`: replace the first occurrence of `old`
(if any) by `new`.  `old` is always a non-empty token here. -/
def replaceFirst (s old new : List Char) : List Char :=
  match s with
  | [] => []
  | c :: rest =>
    if old.isPrefixOf (c :: rest) then new ++ (c :: rest).drop old.length
    else c :: replaceFirst rest old new

/-- Stable insertion sort by `index`, modelling
`sorted(placeholders, key=lambda x: x["index"])` (line 341). -/
def insertByIndex (x : Placeholder) : List Placeholder → List Placeholder
  | [] => [x]
  | y :: ys => if x.index ≤ y.index then x :: y :: ys else y :: insertByIndex x ys

def sortByIndex : List Placeholder → List Placeholder
  | [] => []
  | x :: xs => insertByIndex x (sortByIndex xs)

/-- The substitution loop of `_process_images` (lines 345-375).  `resolver`
abstracts `searcher.search_and_get_url`; its first argument is the 1-based
call number (the loop's `enumerate(placeholders_sorted, 1)` counter), so a
stateful searcher returning different URLs on successive calls is
representable.  A `none` result leaves the token untouched. -/
def processPlaceholders (chapter : Chapter) (resolver : Nat → List Char → Option (List Char)) :
    List Placeholder → Nat → List Char → List Char
  | [], _, content => content
  | p :: rest, i, content =>
    let sk := searchKeyword p chapter
    match resolver i sk with
    | some url =>
      processPlaceholders chapter resolver rest (i + 1)
        (replaceFirst content p.path (imageMarkdown sk url))
    | none => processPlaceholders chapter resolver rest (i + 1) content

/-- Case-insensitive prefix test (`pat` is given in lower case). -/
def ciHasPrefix : List Char → List Char → Bool
  | [], _ => true
  | _ :: _, [] => false
  | p :: ps, c :: cs => (c.toLower == p) && ciHasPrefix ps cs

/-- The alternation `(jpg|jpeg|png|gif|webp)` of the URL-rewrite pattern:
returns the length of the first alternative matching (case-insensitively) at
the head of `l`. -/
def findExt (l : List Char) : Option Nat :=
  if ciHasPrefix "jpg".toList l then some 3
  else if ciHasPrefix "jpeg".toList l then some 4
  else if ciHasPrefix "png".toList l then some 3
  else if ciHasPrefix "gif".toList l then some 3
  else if ciHasPrefix "webp".toList l then some 4
  else none

/-- Greedy `[^\s\n]+\.(jpg|...)` against the maximal non-whitespace run `R`:
the largest `k ≥ 1` with `R[k] = '.'` and an extension right after, returning
`(k, extension length)`. -/
def findK (R : List Char) : Option (Nat × Nat) :=
  (List.range R.length).reverse.findSome? fun k =>
    if 1 ≤ k ∧ R.get? k = some '.' then
      (findExt (R.drop (k + 1))).map fun el => (k, el)
    else none

/-- Fuel-indexed scan of
`re.sub(r'https://images/([^\s\n]+\.(jpg|jpeg|png|gif|webp))', ..., content,
flags=re.IGNORECASE)` (lines 379-385): each match
`https://images/<group1>` is replaced by `<image_dir>/<group1>` (the group
keeps its original case) and scanning resumes after the match. -/
def urlRewriteF (dir : List Char) : Nat → List Char → List Char
  | 0, _ => []
  | _ + 1, [] => []
  | f + 1, c :: rest =>
    let s := c :: rest
    if ciHasPrefix "https://images/".toList s then
      let R := (s.drop 15).takeWhile fun ch => ¬ pyIsSpace ch
      match findK R with
      | some ke =>
        dir ++ '/' :: (R.take (ke.1 + 1 + ke.2) ++
          urlRewriteF dir f (s.drop (15 + ke.1 + 1 + ke.2)))
      | none => c :: urlRewriteF dir f rest
    else c :: urlRewriteF dir f rest

def urlRewrite (dir : List Char) (s : List Char) : List Char :=
  urlRewriteF dir s.length s

/-- `ChapterGenerator._process_images` (lines 308-388), with the searcher
abstracted to `resolver`.  The import guard of line 323 is omitted: both
modules are present in this repository.  The `chapter_dir` argument is used
only in log output and is dropped. -/
def processImages (cfg : ImagesConfig) (chapter : Chapter) (content : List Char)
    (resolver : Nat → List Char → Option (List Char)) : List Char :=
  let placeholders := extract_image_placeholders content
  if placeholders.isEmpty then content
  else if !(cfg.enabled.getD false) then content
  else if (cfg.enabled.getD true) && (cfg.search_source == some "baidu".toList) then
    processPlaceholders chapter resolver (sortByIndex placeholders) 1 content
  else
    urlRewrite (cfg.image_dir.getD "images".toList) content

/-- `_get_next_chapter_to_generate` (lines 144-160): the artifact location is
keyed by the chapter id (`chapter_{id:02d}/<readme>`), so the filesystem is
abstracted to a predicate on ids. -/
def getNextChapterToGenerate (artifactExists : Int → Bool) : List Chapter → Option Chapter
  | [] => none
  | ch :: rest =>
    if artifactExists ch.id then getNextChapterToGenerate artifactExists rest
    else some ch

/-- Outcome model of `generate_next_chapter` (lines 390-431): `next` is the
pending chapter (if any); `prompt` the outcome of `_create_chapter_prompt`
(its `FileNotFoundError` propagates); `api` the outcome of
`_call_deepseek_api` (its exception is caught at line 411 and turns into
`False`); `save` the outcome of `_save_chapter` (write errors propagate).
Image processing never raises and does not affect the outcome. -/
def generateNextChapterResult (next : Option Chapter)
    (prompt : Except (List Char) (List Char)) (api : Except (List Char) (List Char))
    (save : Except (List Char) Unit) : Except (List Char) Bool :=
  match next with
  | none => Except.ok false
  | some _ =>
    match prompt with
    | Except.error e => Except.error e
    | Except.ok _ =>
      match api with
      | Except.error _ => Except.ok false
      | Except.ok _ =>
        match save with
        | Except.error e => Except.error e
        | Except.ok _ => Except.ok true

/-- Outcome model of `generate_specific_chapter` (lines 433-481): as above but
driven by whether the requested id is found in the plan. -/
def generateSpecificChapterResult (found : Bool)
    (prompt : Except (List Char) (List Char)) (api : Except (List Char) (List Char))
    (save : Except (List Char) Unit) : Except (List Char) Bool :=
  if found then
    match prompt with
    | Except.error e => Except.error e
    | Except.ok _ =>
      match api with
      | Except.error _ => Except.ok false
      | Except.ok _ =>
        match save with
        | Except.error e => Except.error e
        | Except.ok _ => Except.ok true
  else Except.ok false

/-- Exit-code skeleton of `main` (lines 484-511).  `init` is the outcome of
`ChapterGenerator()` (missing credentials, unreadable or malformed
config/plan raise). `arg` models `sys.argv[1]`: `none` = absent,
`some none` = present but not an integer (`int()` raises `ValueError`,
handled by `sys.exit(1)`), `some (some id)` = a chapter id.  The boolean
results of the generate calls are ignored by `main`; only an escaping
exception reaches the `except` clause that exits 1.  Falling through exits 0.
-/
def mainExitCode (init : Except (List Char) Unit) (arg : Option (Option Int))
    (nextResult : Except (List Char) Bool)
    (specificResult : Except (List Char) Bool) : Nat :=
  match init with
  | Except.error _ => 1
  | Except.ok _ =>
    match arg with
    | some none => 1
    | some (some _) =>
      match specificResult with
      | Except.error _ => 1
      | Except.ok _ => 0
    | none =>
      match nextResult with
      | Except.error _ => 1
      | Except.ok _ => 0

/-! ### Specification-side definitions -/

/-- `t` occurs in `s` at position `q`. -/
def OccursAt (s t : List Char) (q : Nat) : Prop := t <+: s.drop q

instance (s t : List Char) (q : Nat) : Decidable (OccursAt s t q) :=
  decidable_of_iff (t.isPrefixOf (s.drop q) = true)
    (by simp [OccursAt, List.isPrefixOf_iff_prefix])

/-- Decidable form of the key input hygiene condition of the amended claims
C2/C3: every occurrence of an extracted raw token in the input starts at the
match position of some extracted placeholder with that same token. -/
def tokensIsolatedB (content : List Char) : Bool :=
  (extract_image_placeholders content).all fun p =>
    (List.range (content.length + 1)).all fun q =>
      !(decide (OccursAt content p.path q)) ||
        (extract_image_placeholders content).any fun q' =>
          q'.pos == q && q'.path == p.path

/-- The output text the claims describe: the input with each extracted match
span replaced by its markdown (or kept when the resolver yields nothing),
processed in sequence order with 1-based call numbers.  `cur` is the input
offset reached so far. -/
def splice (s : List Char) (chapter : Chapter)
    (resolver : Nat → List Char → Option (List Char)) :
    Nat → Nat → List Placeholder → List Char
  | cur, _, [] => s.drop cur
  | cur, i, p :: rest =>
    (s.drop cur).take (p.pos - cur) ++
      (match resolver i (searchKeyword p chapter) with
       | some url => imageMarkdown (searchKeyword p chapter) url
       | none => p.path) ++
      splice s chapter resolver (p.pos + p.path.length) (i + 1) rest

/-- C7's description of the keyword choice, written from the amended claim's
words, to be compared with `searchKeyword`. -/
def claimSearchKeyword (p : Placeholder) (chapter : Chapter) : List Char :=
  if pyStrip p.keyword ≠ [] then pyStrip p.keyword
  else if chapter.keywords ≠ [] then
    chapter.keywords.getD ((((p.index : Int) - 1) % (chapter.keywords.length : Int)).toNat) []
  else "历史".toList

/-- `l` has no two consecutive underscore characters. -/
def NoTwoUnderscores (l : List Char) : Prop :=
  List.Chain' (fun a b => a ≠ '_' ∨ b ≠ '_') l

instance (l : List Char) : Decidable (NoTwoUnderscores l) :=
  inferInstanceAs (Decidable (List.Chain' (fun a b => a ≠ '_' ∨ b ≠ '_') l))

/-- Kernel-computable version of `NoTwoUnderscores`. -/
def noTwoUnderscoresB : List Char → Bool
  | [] => true
  | [_] => true
  | a :: b :: rest =>
    (decide (a ≠ '_') || decide (b ≠ '_')) && noTwoUnderscoresB (b :: rest)

/-- The shape every extracted raw token has: `__<inner>__` with `inner`
non-empty and underscore-free. -/
def TokenShape (t : List Char) : Prop :=
  ∃ inner, t = '_' :: '_' :: (inner ++ ['_', '_']) ∧ inner ≠ [] ∧ ∀ c ∈ inner, c ≠ '_'

/-- Decidable test for C6's hypothesis: does the content contain a substring
matching the placeholder pattern (double underscore, one or more
non-underscore characters, double underscore) whose trimmed text is
non-empty?  A substring occurrence of the pattern at `q` is the same thing as
`tryMatch` succeeding on the suffix at `q`. -/
def hasValidTokenB (s : List Char) : Bool :=
  (List.range s.length).any fun q =>
    match tryMatch (s.drop q) with
    | some inner => !(pyStrip inner).isEmpty
    | none => false

/-! ## Lemmas about the extractor -/

theorem takeWhile_append_cons (p : Char → Bool) (inner : List Char) (c : Char)
    (l : List Char) (hall : ∀ x ∈ inner, p x = true) (hc : p c = false) :
    (inner ++ c :: l).takeWhile p = inner := by
  induction inner with
  | nil => simp [List.takeWhile_cons, hc]
  | cons a t ih =>
    have ha : p a = true := hall a (by simp)
    simp only [List.cons_append, List.takeWhile_cons, ha, if_true]
    rw [ih fun x hx => hall x (by simp [hx])]

theorem takeWhile_append_drop (p : Char → Bool) (l : List Char) :
    l.takeWhile p ++ l.drop (l.takeWhile p).length = l := by
  induction l with
  | nil => simp
  | cons a t ih => by_cases h : p a <;> simp [List.takeWhile_cons, h, ih]

theorem tryMatch_cons (rest : List Char) :
    tryMatch ('_' :: '_' :: rest) =
      if (rest.takeWhile (fun c => c ≠ '_')).isEmpty then none
      else
        match rest.drop (rest.takeWhile (fun c => c ≠ '_')).length with
        | '_' :: '_' :: _ => some (rest.takeWhile (fun c => c ≠ '_'))
        | _ => none := rfl

theorem tryMatch_some_iff (s inner : List Char) :
    tryMatch s = some inner ↔
      inner ≠ [] ∧ (∀ c ∈ inner, c ≠ '_') ∧
        ∃ after, s = '_' :: '_' :: (inner ++ '_' :: '_' :: after) := by
  constructor
  · intro h
    unfold tryMatch at h
    split at h
    · rename_i rest
      split at h
      · exact absurd h (by simp)
      · rename_i hemp
        split at h
        · rename_i after hdrop
          have hinner : rest.takeWhile (fun c => c ≠ '_') = inner := by
            simpa using h
          refine ⟨?_, ?_, ?_⟩
          · rw [← hinner]; simpa [List.isEmpty_iff] using hemp
          · intro c hc
            rw [← hinner] at hc
            simpa using List.mem_takeWhile_imp hc
          · refine ⟨after, ?_⟩
            have hsplit := takeWhile_append_drop (fun c => decide (c ≠ '_')) rest
            rw [hdrop, hinner] at hsplit
            rw [← hsplit]
        · exact absurd h (by simp)
    · exact absurd h (by simp)
  · rintro ⟨hne, hall, after, rfl⟩
    rw [tryMatch_cons]
    have htw : ((inner ++ '_' :: '_' :: after).takeWhile fun c => c ≠ '_') = inner :=
      takeWhile_append_cons _ _ _ _ (fun x hx => by simpa using hall x hx) (by simp)
    rw [htw]
    simp only [List.isEmpty_iff, hne, if_false]
    rw [List.drop_append_of_le_length (by simp)]
    simp [htw]

theorem scanF_pos_le (f : Nat) :
    ∀ (s : List Char) (pos : Nat), ∀ x ∈ scanF f s pos, pos ≤ x.1 := by
  induction f with
  | zero => intro s pos x hx; simp [scanF] at hx
  | succ f ih =>
    intro s pos x hx
    match s with
    | [] => simp [scanF] at hx
    | c :: rest =>
      simp only [scanF] at hx
      split at hx
      · rename_i inner htm
        rcases List.mem_cons.1 hx with rfl | hx'
        · exact le_refl _
        · have := ih _ _ x hx'
          omega
      · have := ih _ _ x hx
        omega

theorem scanF_sound (f : Nat) :
    ∀ (s : List Char) (pos : Nat), ∀ x ∈ scanF f s pos,
      pos ≤ x.1 ∧ tryMatch (s.drop (x.1 - pos)) = some x.2 := by
  induction f with
  | zero => intro s pos x hx; simp [scanF] at hx
  | succ f ih =>
    intro s pos x hx
    match s with
    | [] => simp [scanF] at hx
    | c :: rest =>
      simp only [scanF] at hx
      split at hx
      · rename_i inner htm
        rcases List.mem_cons.1 hx with rfl | hx'
        · simpa using htm
        · obtain ⟨hle, hmatch⟩ := ih _ _ x hx'
          have hpos : pos ≤ x.1 := by omega
          refine ⟨hpos, ?_⟩
          rw [List.drop_drop] at hmatch
          have harith : inner.length + 3 + (x.1 - (pos + inner.length + 4)) =
              x.1 - pos - 1 := by omega
          rw [harith] at hmatch
          rw [← hmatch]
          have heq : x.1 - pos = (x.1 - pos - 1) + 1 := by omega
          rw [heq, List.drop_succ_cons]
          congr 2
      · obtain ⟨hle, hmatch⟩ := ih _ _ x hx
        refine ⟨by omega, ?_⟩
        rw [← hmatch]
        have heq : x.1 - pos = (x.1 - (pos + 1)) + 1 := by omega
        rw [heq, List.drop_succ_cons]

theorem scanF_chain (f : Nat) :
    ∀ (s : List Char) (pos : Nat),
      List.Chain' (fun a b => a.1 + a.2.length + 4 ≤ b.1) (scanF f s pos) := by
  induction f with
  | zero => intro s pos; simp [scanF]
  | succ f ih =>
    intro s pos
    match s with
    | [] => simp [scanF]
    | c :: rest =>
      simp only [scanF]
      split
      · rename_i inner htm
        refine List.chain'_cons'.2 ⟨?_, ih _ _⟩
        intro y hy
        have hmem : y ∈ scanF f (rest.drop (inner.length + 3)) (pos + inner.length + 4) :=
          List.mem_of_mem_head? hy
        exact scanF_pos_le f _ _ y hmem
      · exact ih _ _

theorem insertByPos_of_le (x y : Nat × List Char × List Char)
    (ys : List (Nat × List Char × List Char)) (h : x.1 ≤ y.1) :
    insertByPos x (y :: ys) = x :: y :: ys := by
  simp [insertByPos, h]

theorem sortByPos_eq_self (l : List (Nat × List Char × List Char))
    (h : l.Pairwise fun a b => a.1 ≤ b.1) : sortByPos l = l := by
  induction l with
  | nil => rfl
  | cons x xs ih =>
    have hx := List.pairwise_cons.1 h
    rw [sortByPos, ih hx.2]
    match xs with
    | [] => rfl
    | y :: ys => exact insertByPos_of_le x y ys (hx.1 y (by simp))

theorem insertByIndex_of_le (x y : Placeholder) (ys : List Placeholder)
    (h : x.index ≤ y.index) : insertByIndex x (y :: ys) = x :: y :: ys := by
  simp [insertByIndex, h]

theorem sortByIndex_eq_self (l : List Placeholder)
    (h : l.Pairwise fun a b => a.index ≤ b.index) : sortByIndex l = l := by
  induction l with
  | nil => rfl
  | cons x xs ih =>
    have hx := List.pairwise_cons.1 h
    rw [sortByIndex, ih hx.2]
    match xs with
    | [] => rfl
    | y :: ys => exact insertByIndex_of_le x y ys (hx.1 y (by simp))

theorem scan_pairwise (content : List Char) :
    (scan content 0).Pairwise fun a b => a.1 + a.2.length + 4 ≤ b.1 := by
  letI : IsTrans (Nat × List Char) (fun a b => a.1 + a.2.length + 4 ≤ b.1) :=
    ⟨fun a b c h1 h2 => by omega⟩
  exact List.chain'_iff_pairwise.1 (scanF_chain _ _ _)

theorem mem_placeholderPositions (content : List Char)
    (x : Nat × List Char × List Char) (hx : x ∈ placeholderPositions content) :
    ∃ inner, (x.1, inner) ∈ scan content 0 ∧ ¬(pyStrip inner).isEmpty = true ∧
      x.2.1 = pyStrip inner ∧ x.2.2 = '_' :: '_' :: (inner ++ ['_', '_']) := by
  unfold placeholderPositions at hx
  obtain ⟨⟨q, inner⟩, hmem, hf⟩ := List.mem_filterMap.1 hx
  by_cases hemp : (pyStrip inner).isEmpty
  · simp [hemp] at hf
  · simp only [hemp, if_neg, Bool.false_eq_true, not_false_iff, if_false,
      Option.some_inj] at hf
    subst hf
    exact ⟨inner, hmem, hemp, rfl, rfl⟩

theorem placeholderPositions_pairwise (content : List Char) :
    (placeholderPositions content).Pairwise fun a b => a.1 + a.2.2.length ≤ b.1 := by
  unfold placeholderPositions
  rw [List.pairwise_filterMap]
  refine (scan_pairwise content).imp_of_mem ?_
  intro a b _ _ hab
  intro x hx y hy
  by_cases ha : (pyStrip a.2).isEmpty
  · simp [ha] at hx
  · by_cases hb : (pyStrip b.2).isEmpty
    · simp [hb] at hy
    · simp only [ha, hb, if_neg, Bool.false_eq_true, not_false_iff, if_false,
        Option.mem_def, Option.some_inj] at hx hy
      rw [← hx, ← hy]
      simp only [List.length_cons, List.length_append, List.length_cons,
        List.length_nil]
      omega

theorem placeholderPositions_sorted (content : List Char) :
    sortByPos (placeholderPositions content) = placeholderPositions content := by
  refine sortByPos_eq_self _ ?_
  exact (placeholderPositions_pairwise content).imp (by intro a b h; omega)

theorem extract_eq_base (content : List Char) :
    extract_image_placeholders content =
      (placeholderPositions content).enum.map fun ip =>
        { keyword := ip.2.2.1, path := ip.2.2.2, index := ip.1 + 1, pos := ip.2.1 } := by
  unfold extract_image_placeholders
  rw [placeholderPositions_sorted]

theorem mem_extract (content : List Char) (p : Placeholder)
    (hp : p ∈ extract_image_placeholders content) :
    ∃ x ∈ placeholderPositions content,
      p.keyword = x.2.1 ∧ p.path = x.2.2 ∧ p.pos = x.1 := by
  rw [extract_eq_base] at hp
  obtain ⟨ip, hip, rfl⟩ := List.mem_map.1 hp
  refine ⟨ip.2, ?_, rfl, rfl, rfl⟩
  have : ip.2 ∈ (placeholderPositions content).enum.map Prod.snd :=
    List.mem_map_of_mem Prod.snd hip
  rwa [List.enum_map_snd] at this

theorem pyStrip_subset (l : List Char) : ∀ c ∈ pyStrip l, c ∈ l := by
  intro c hc
  unfold pyStrip at hc
  rw [List.mem_reverse] at hc
  have h1 : c ∈ (l.dropWhile pyIsSpace).reverse :=
    List.Sublist.mem hc (List.dropWhile_sublist pyIsSpace)
  rw [List.mem_reverse] at h1
  exact List.Sublist.mem h1 (List.dropWhile_sublist pyIsSpace)

theorem dropWhile_eq_self_of_head (p : Char → Bool) (l : List Char)
    (h : ∀ c ∈ l.head?, ¬ p c = true) : l.dropWhile p = l := by
  match l with
  | [] => rfl
  | c :: t =>
    have := h c rfl
    simp only [List.dropWhile_cons]
    simp [this]

theorem pyStrip_idem (l : List Char) : pyStrip (pyStrip l) = pyStrip l := by
  unfold pyStrip
  set u := l.dropWhile pyIsSpace with hu
  set v := u.reverse.dropWhile pyIsSpace with hv
  rcases hveq : v with _ | ⟨c, t⟩
  · simp [hveq]
  · have hvne : v ≠ [] := by rw [hveq]; simp
    have hhead : ∀ x ∈ v.head?, ¬ pyIsSpace x = true := by
      intro x hx
      have h0 := List.head?_dropWhile_not pyIsSpace u.reverse
      rw [← hv] at h0
      rcases hv0 : v.head? with _ | y
      · rw [hv0] at hx; exact absurd hx (by simp)
      · rw [hv0] at h0 hx
        simp only [Option.mem_def, Option.some_inj] at hx
        subst hx
        simpa using h0
    have hlast : ∀ x ∈ v.getLast?, ¬ pyIsSpace x = true := by
      intro x hx
      obtain ⟨w, hw⟩ : v <:+ u.reverse := by
        rw [hv]; exact List.dropWhile_suffix pyIsSpace
      have : u.reverse.getLast? = v.getLast? := by
        rw [← hw]
        rw [List.getLast?_append]
        have : v.getLast? = some x := hx
        simp [this]
      have hx' : u.reverse.getLast? = some x := by rw [this]; exact hx
      rw [List.getLast?_reverse] at hx'
      have hu' : u ≠ [] := by
        intro h0
        rw [h0] at hx'
        simp at hx'
      have h2 := List.head?_dropWhile_not pyIsSpace l
      rw [← hu] at h2
      rw [hx'] at h2
      simpa using h2
    have h1 : v.reverse.dropWhile pyIsSpace = v.reverse := by
      refine dropWhile_eq_self_of_head _ _ ?_
      intro x hx
      rw [List.head?_reverse] at hx
      exact hlast x hx
    rw [← hveq, h1, List.reverse_reverse]
    have h2 : v.dropWhile pyIsSpace = v := by
      refine dropWhile_eq_self_of_head _ _ ?_
      exact hhead
    rw [h2]

theorem extract_match (content : List Char) (p : Placeholder)
    (hp : p ∈ extract_image_placeholders content) :
    ∃ inner, tryMatch (content.drop p.pos) = some inner ∧
      p.path = '_' :: '_' :: (inner ++ ['_', '_']) ∧
      p.keyword = pyStrip inner ∧ pyStrip inner ≠ [] := by
  obtain ⟨x, hx, hkw, hpath, hpos⟩ := mem_extract content p hp
  obtain ⟨inner, hscan, hemp, hkw', hpath'⟩ := mem_placeholderPositions content x hx
  have hsound := scanF_sound content.length content 0 (x.1, inner) hscan
  refine ⟨inner, ?_, by rw [hpath, hpath'], by rw [hkw, hkw'], ?_⟩
  · have h2 := hsound.2
    simpa [hpos] using h2
  · simpa [List.isEmpty_iff] using hemp

theorem extract_shape (content : List Char) (p : Placeholder)
    (hp : p ∈ extract_image_placeholders content) : TokenShape p.path := by
  obtain ⟨inner, htm, hpath, _, _⟩ := extract_match content p hp
  obtain ⟨hne, hall, _⟩ := (tryMatch_some_iff _ _).1 htm
  exact ⟨inner, hpath, hne, hall⟩

theorem extract_occurs (content : List Char) (p : Placeholder)
    (hp : p ∈ extract_image_placeholders content) :
    OccursAt content p.path p.pos := by
  obtain ⟨inner, htm, hpath, _, _⟩ := extract_match content p hp
  obtain ⟨hne, hall, after, hdrop⟩ := (tryMatch_some_iff _ _).1 htm
  rw [OccursAt, hdrop, hpath]
  simp only [List.cons_prefix_cons, true_and]
  rw [List.prefix_append_right_inj]
  exact ⟨after, by simp⟩

theorem extract_keyword_facts (content : List Char) (p : Placeholder)
    (hp : p ∈ extract_image_placeholders content) :
    pyStrip p.keyword = p.keyword ∧ p.keyword ≠ [] ∧ ∀ c ∈ p.keyword, c ≠ '_' := by
  obtain ⟨inner, htm, _, hkw, hne⟩ := extract_match content p hp
  obtain ⟨_, hall, _⟩ := (tryMatch_some_iff _ _).1 htm
  refine ⟨by rw [hkw]; exact pyStrip_idem inner, by rw [hkw]; exact hne, ?_⟩
  intro c hc
  rw [hkw] at hc
  exact hall c (pyStrip_subset inner c hc)

theorem extract_maximal (content : List Char) (p : Placeholder)
    (hp : p ∈ extract_image_placeholders content) (X : List Char)
    (hXall : ∀ c ∈ X, c ≠ '_')
    (hocc : OccursAt content ('_' :: '_' :: (X ++ ['_', '_'])) p.pos) :
    '_' :: '_' :: (X ++ ['_', '_']) = p.path := by
  obtain ⟨inner, htm, hpath, _, _⟩ := extract_match content p hp
  obtain ⟨hne, hall, after, hdrop⟩ := (tryMatch_some_iff _ _).1 htm
  rw [OccursAt, hdrop] at hocc
  simp only [List.cons_prefix_cons, true_and] at hocc
  obtain ⟨u, hu⟩ := hocc
  have htwL : ((X ++ ['_', '_'] ++ u).takeWhile fun c => c ≠ '_') = X := by
    have : X ++ ['_', '_'] ++ u = X ++ '_' :: '_' :: u := by simp
    rw [this]
    exact takeWhile_append_cons _ _ _ _ (fun x hx => by simpa using hXall x hx) (by simp)
  have htwR : ((inner ++ '_' :: '_' :: after).takeWhile fun c => c ≠ '_') = inner :=
    takeWhile_append_cons _ _ _ _ (fun x hx => by simpa using hall x hx) (by simp)
  have : X = inner := by rw [← htwL, ← htwR, hu]
  rw [hpath, this]

theorem pairwise_enumFrom {α : Type} (S : α → α → Prop) :
    ∀ (l : List α) (n : Nat), l.Pairwise S →
      (l.enumFrom n).Pairwise fun x y => S x.2 y.2 := by
  intro l
  induction l with
  | nil => intro n _; simp
  | cons a t ih =>
    intro n h
    have h' := List.pairwise_cons.1 h
    rw [List.enumFrom]
    refine List.pairwise_cons.2 ⟨?_, ih (n + 1) h'.2⟩
    intro y hy
    have : y.2 ∈ List.map Prod.snd (t.enumFrom (n + 1)) := List.mem_map_of_mem Prod.snd hy
    rw [List.enumFrom_map_snd] at this
    exact h'.1 y.2 this

theorem extract_pairwise_pos (content : List Char) :
    (extract_image_placeholders content).Pairwise
      fun a b => a.pos + a.path.length ≤ b.pos := by
  rw [extract_eq_base]
  rw [List.pairwise_map]
  have hbase := placeholderPositions_pairwise content
  have := pairwise_enumFrom (fun a b => a.1 + a.2.2.length ≤ b.1)
    (placeholderPositions content) 0 hbase
  rw [List.enum]
  exact this.imp (by intro a b h; simpa using h)

theorem extract_indices (content : List Char) :
    (extract_image_placeholders content).map (fun p => p.index) =
      List.range' 1 (extract_image_placeholders content).length := by
  rw [extract_eq_base]
  rw [List.map_map, List.length_map, List.enum_length]
  have h1 : ((fun p : Placeholder => p.index) ∘ fun ip : Nat × (Nat × List Char × List Char) =>
      ({ keyword := ip.2.2.1, path := ip.2.2.2, index := ip.1 + 1, pos := ip.2.1 } : Placeholder))
      = fun ip => ip.1 + 1 := rfl
  rw [h1]
  have h2 : (fun ip : Nat × (Nat × List Char × List Char) => ip.1 + 1) =
      (fun n => n + 1) ∘ Prod.fst := rfl
  rw [h2, ← List.map_map, List.enum_map_fst, List.range'_eq_map_range]
  congr 1
  ext n
  omega

theorem extract_pairwise_index (content : List Char) :
    (extract_image_placeholders content).Pairwise fun a b => a.index < b.index := by
  rw [← List.pairwise_map (f := fun p : Placeholder => p.index)]
  rw [extract_indices]
  exact List.pairwise_lt_range' 1 _

theorem sortByIndex_extract (content : List Char) :
    sortByIndex (extract_image_placeholders content) =
      extract_image_placeholders content := by
  refine sortByIndex_eq_self _ ?_
  exact (extract_pairwise_index content).imp (by intro a b h; omega)

/-! ## Occurrence and replacement lemmas -/

theorem prefix_iff_get (l₁ l₂ : List Char) :
    l₁ <+: l₂ ↔ l₁.length ≤ l₂.length ∧ ∀ j < l₁.length, l₂.get? j = l₁.get? j := by
  constructor
  · rintro ⟨t, rfl⟩
    refine ⟨by simp, ?_⟩
    intro j hj
    rw [List.get?_append hj]
  · intro ⟨hlen, hget⟩
    induction l₁ generalizing l₂ with
    | nil => exact List.nil_prefix
    | cons a t ih =>
      match l₂ with
      | [] => simp at hlen
      | b :: t₂ =>
        have h0 := hget 0 (by simp)
        simp only [List.get?] at h0
        have hab : b = a := by simpa using h0
        subst hab
        rw [List.cons_prefix_cons]
        refine ⟨rfl, ih t₂ (by simpa using hlen) ?_⟩
        intro j hj
        have := hget (j + 1) (by simpa using Nat.succ_lt_succ hj)
        simpa using this

theorem occursAt_length {s t : List Char} {q : Nat} (h : OccursAt s t q)
    (ht : t ≠ []) : q + t.length ≤ s.length := by
  have h1 : t.length ≤ (s.drop q).length := h.length_le
  have h2 : 1 ≤ t.length := by
    match t, ht with
    | c :: r, _ => simp
  simp only [List.length_drop] at h1
  omega

theorem occursAt_append_of_left {X Y t : List Char} {q : Nat}
    (h : OccursAt X t q) : OccursAt (X ++ Y) t q := by
  rw [OccursAt, List.drop_append_eq_append_drop]
  exact h.trans (List.prefix_append _ _)

theorem occursAt_append_right {X Y t : List Char} {q : Nat}
    (h : OccursAt Y t q) : OccursAt (X ++ Y) t (X.length + q) := by
  rw [OccursAt, List.drop_append_eq_append_drop]
  have h1 : X.drop (X.length + q) = [] := by
    apply List.drop_eq_nil_of_le; omega
  rw [h1, List.nil_append]
  have h2 : X.length + q - X.length = q := by omega
  rw [h2]
  exact h

theorem occursAt_of_append_left {X Y t : List Char} {q : Nat}
    (h : OccursAt (X ++ Y) t q) (hq : q + t.length ≤ X.length) : OccursAt X t q := by
  rw [OccursAt, List.drop_append_eq_append_drop] at h
  rw [OccursAt]
  have hlen : t.length ≤ (X.drop q).length := by
    simp only [List.length_drop]; omega
  obtain ⟨u, hu⟩ := h
  have htake : t = (X.drop q).take t.length := by
    have h2 := congrArg (List.take t.length) hu
    rw [List.take_append_of_le_length hlen] at h2
    rw [← h2, List.take_left]
  rw [htake]
  exact List.take_prefix _ _

theorem occursAt_of_append_right {X Y t : List Char} {q : Nat}
    (h : OccursAt (X ++ Y) t q) (hq : X.length ≤ q) : OccursAt Y t (q - X.length) := by
  rw [OccursAt, List.drop_append_eq_append_drop] at h
  have h1 : X.drop q = [] := by apply List.drop_eq_nil_of_le; omega
  rw [h1, List.nil_append] at h
  exact h

theorem occursAt_drop {s t : List Char} {d r : Nat} :
    OccursAt (s.drop d) t r ↔ OccursAt s t (d + r) := by
  unfold OccursAt
  rw [List.drop_drop]

theorem occursAt_get {s t : List Char} {q : Nat} (h : OccursAt s t q) :
    ∀ j < t.length, s.get? (q + j) = t.get? j := by
  intro j hj
  rw [OccursAt, prefix_iff_get] at h
  have := h.2 j hj
  rw [List.get?_drop] at this
  exact this

theorem replaceFirst_of_first_occ (old new : List Char) (hold : old ≠ []) :
    ∀ (s : List Char) (q : Nat), OccursAt s old q →
      (∀ q' < q, ¬ OccursAt s old q') →
      replaceFirst s old new = s.take q ++ new ++ s.drop (q + old.length) := by
  intro s
  induction s with
  | nil =>
    intro q hocc _
    rw [OccursAt, List.drop_nil] at hocc
    exact absurd (List.prefix_nil.1 hocc) hold
  | cons c rest ih =>
    intro q hocc hmin
    match q with
    | 0 =>
      rw [OccursAt, List.drop_zero] at hocc
      rw [replaceFirst, if_pos (List.isPrefixOf_iff_prefix.2 hocc)]
      simp
    | q' + 1 =>
      have hnot : ¬ old.isPrefixOf (c :: rest) = true := by
        rw [List.isPrefixOf_iff_prefix]
        intro hpre
        exact hmin 0 (by omega) (by rw [OccursAt, List.drop_zero]; exact hpre)
      rw [replaceFirst, if_neg hnot]
      have hocc' : OccursAt rest old q' := by
        rw [OccursAt] at hocc ⊢
        rwa [List.drop_succ_cons] at hocc
      have hmin' : ∀ r < q', ¬ OccursAt rest old r := by
        intro r hr hc
        refine hmin (r + 1) (by omega) ?_
        rw [OccursAt, List.drop_succ_cons]
        exact hc
      rw [ih q' hocc' hmin']
      have harith : q' + 1 + old.length = (q' + old.length) + 1 := by omega
      rw [harith, List.drop_succ_cons]
      simp

/-! ## The replacement text cannot take part in a token occurrence -/

theorem imageMarkdown_eq_append (kw url : List Char) :
    imageMarkdown kw url = ('!' :: '[' :: kw) ++ (']' :: '(' :: url) ++ [')'] := by
  simp [imageMarkdown]

theorem imageMarkdown_length (kw url : List Char) :
    (imageMarkdown kw url).length = kw.length + url.length + 5 := by
  simp [imageMarkdown]
  omega

theorem chain'_of_forall_ne {l : List Char} (h : ∀ c ∈ l, c ≠ '_') :
    List.Chain' (fun a b => a ≠ '_' ∨ b ≠ '_') l := by
  induction l with
  | nil => simp
  | cons c t ih =>
    refine List.chain'_cons'.2 ⟨?_, ih fun x hx => h x (by simp [hx])⟩
    intro y _
    exact Or.inl (h c (by simp))

theorem imageMarkdown_noTwo (kw url : List Char) (hkw : ∀ c ∈ kw, c ≠ '_')
    (hurl : NoTwoUnderscores url) : NoTwoUnderscores (imageMarkdown kw url) := by
  unfold NoTwoUnderscores
  rw [imageMarkdown_eq_append, List.chain'_append, List.chain'_append]
  refine ⟨⟨?_, ?_, ?_⟩, ?_, ?_⟩
  · refine List.chain'_cons'.2 ⟨fun y _ => Or.inl (by simp), ?_⟩
    refine List.chain'_cons'.2 ⟨fun y _ => Or.inl (by simp), ?_⟩
    exact chain'_of_forall_ne hkw
  · refine List.chain'_cons'.2 ⟨fun y _ => Or.inl (by simp), ?_⟩
    refine List.chain'_cons'.2 ⟨fun y _ => Or.inl (by simp), ?_⟩
    exact hurl
  · intro x _ y hy
    simp only [List.head?_cons, Option.mem_def, Option.some_inj] at hy
    exact Or.inr (by rw [← hy]; simp)
  · simp
  · intro x _ y hy
    simp only [List.head?_cons, Option.mem_def, Option.some_inj] at hy
    exact Or.inr (by rw [← hy]; simp)

theorem noTwo_get {l : List Char} (h : NoTwoUnderscores l) {j : Nat}
    (h1 : l.get? j = some '_') (h2 : l.get? (j + 1) = some '_') : False := by
  unfold NoTwoUnderscores at h
  rw [List.chain'_iff_get] at h
  obtain ⟨hj2, hget2⟩ := List.get?_eq_some.1 h2
  obtain ⟨hj1, hget1⟩ := List.get?_eq_some.1 h1
  have := h j (by omega)
  rw [hget1, hget2] at this
  rcases this with h' | h' <;> exact h' rfl

theorem imageMarkdown_get_zero (kw url : List Char) :
    (imageMarkdown kw url).get? 0 = some '!' := rfl

theorem imageMarkdown_get_one (kw url : List Char) :
    (imageMarkdown kw url).get? 1 = some '[' := rfl

theorem imageMarkdown_get_last (kw url : List Char) :
    (imageMarkdown kw url).get? ((imageMarkdown kw url).length - 1) = some ')' := by
  rw [← List.getLast?_eq_get?]
  rw [imageMarkdown_eq_append]
  rw [List.append_assoc]
  rw [List.getLast?_append]
  simp
  rw [show ('(' :: (url ++ [')'])) = ('(' :: url) ++ [')'] by simp,
    List.getLast?_concat]

theorem tokenShape_facts {t : List Char} (h : TokenShape t) :
    4 ≤ t.length ∧ t.get? 0 = some '_' ∧ t.get? 1 = some '_' ∧
      t.get? (t.length - 2) = some '_' ∧ t.get? (t.length - 1) = some '_' := by
  obtain ⟨inner, rfl, hne, hall⟩ := h
  have hlen : ('_' :: '_' :: (inner ++ ['_', '_'])).length = inner.length + 4 := by
    simp
  refine ⟨by omega, rfl, rfl, ?_, ?_⟩
  · rw [hlen]
    have : inner.length + 4 - 2 = (inner.length) + 2 := by omega
    rw [this]
    show (inner ++ ['_', '_']).get? inner.length = some '_'
    rw [List.get?_append_right (le_refl _)]
    simp
  · rw [hlen]
    have : inner.length + 4 - 1 = (inner.length + 1) + 2 := by omega
    rw [this]
    show (inner ++ ['_', '_']).get? (inner.length + 1) = some '_'
    rw [List.get?_append_right (by omega)]
    have : inner.length + 1 - inner.length = 1 := by omega
    rw [this]
    simp

theorem infix_pair_of_get {t : List Char} {d : Nat} {a b : Char}
    (ha : t.get? d = some a) (hb : t.get? (d + 1) = some b) : [a, b] <:+: t := by
  obtain ⟨hd1, _⟩ := List.get?_eq_some.1 hb
  have hd : d < t.length := by omega
  have h1 : t.drop d = t.get ⟨d, hd⟩ :: t.drop (d + 1) := (List.get_cons_drop t ⟨d, hd⟩).symm
  have h2 : t.drop (d + 1) = t.get ⟨d + 1, hd1⟩ :: t.drop (d + 2) :=
    (List.get_cons_drop t ⟨d + 1, hd1⟩).symm
  have hga : t.get ⟨d, hd⟩ = a := by
    have := List.get?_eq_some.1 ha
    obtain ⟨h', hg⟩ := this
    exact hg
  have hgb : t.get ⟨d + 1, hd1⟩ = b := by
    obtain ⟨h', hg⟩ := List.get?_eq_some.1 hb
    exact hg
  refine ⟨t.take d, t.drop (d + 2), ?_⟩
  conv_rhs => rw [← List.take_append_drop d t]
  rw [h1, h2, hga, hgb]
  simp

/-- The junction lemma: a well-shaped token occurrence in `X ++ markdown ++ Y`
cannot overlap the markdown block (given the hygiene hypotheses), so it lies
entirely in `X` or entirely in `Y`. -/
theorem occ_avoid_markdown {X Y kw url t : List Char} {q : Nat}
    (hshape : TokenShape t) (hnb : ¬ ['!', '['] <:+: t)
    (hkw : ∀ c ∈ kw, c ≠ '_') (hurl : NoTwoUnderscores url)
    (hocc : OccursAt (X ++ (imageMarkdown kw url ++ Y)) t q) :
    q + t.length ≤ X.length ∨ X.length + (imageMarkdown kw url).length ≤ q := by
  set m := imageMarkdown kw url with hm
  obtain ⟨hlen4, ht0, ht1, htl2, htl1⟩ := tokenShape_facts hshape
  have hmlen : m.length = kw.length + url.length + 5 := imageMarkdown_length kw url
  have hmtwo : NoTwoUnderscores m := imageMarkdown_noTwo kw url hkw hurl
  have hgets := occursAt_get hocc
  have hmlook : ∀ n, X.length ≤ n → n < X.length + m.length →
      (X ++ (m ++ Y)).get? n = m.get? (n - X.length) := by
    intro n h1 h2
    rw [List.get?_append_right h1]
    rw [List.get?_append (by omega)]
  by_contra hcon
  push_neg at hcon
  obtain ⟨hq1, hq2⟩ := hcon
  by_cases hc1 : X.length ≤ q
  · by_cases hc1b : q + 1 < X.length + m.length
    · have e0 : (X ++ (m ++ Y)).get? q = t.get? 0 := by
        have := hgets 0 (by omega); simpa using this
      have e1 : (X ++ (m ++ Y)).get? (q + 1) = t.get? 1 := hgets 1 (by omega)
      rw [hmlook q hc1 hq2, ht0] at e0
      rw [hmlook (q + 1) (by omega) hc1b, ht1] at e1
      have harith : q + 1 - X.length = (q - X.length) + 1 := by omega
      rw [harith] at e1
      exact noTwo_get hmtwo e0 e1
    · have e0 : (X ++ (m ++ Y)).get? q = t.get? 0 := by
        have := hgets 0 (by omega); simpa using this
      rw [hmlook q hc1 hq2, ht0] at e0
      have harith : q - X.length = m.length - 1 := by omega
      rw [harith, imageMarkdown_get_last] at e0
      simp at e0
  · push_neg at hc1
    by_cases hc2 : q + t.length ≤ X.length + m.length
    · by_cases hc2b : X.length ≤ q + t.length - 2
      · have e2 : (X ++ (m ++ Y)).get? (q + (t.length - 2)) = t.get? (t.length - 2) :=
          hgets (t.length - 2) (by omega)
        have e1 : (X ++ (m ++ Y)).get? (q + (t.length - 1)) = t.get? (t.length - 1) :=
          hgets (t.length - 1) (by omega)
        have ha2 : q + (t.length - 2) = q + t.length - 2 := by omega
        have ha1 : q + (t.length - 1) = q + t.length - 1 := by omega
        rw [ha2, hmlook _ hc2b (by omega), htl2] at e2
        rw [ha1, hmlook _ (by omega) (by omega), htl1] at e1
        have harith : q + t.length - 1 - X.length = (q + t.length - 2 - X.length) + 1 := by
          omega
        rw [harith] at e1
        exact noTwo_get hmtwo e2 e1
      · push_neg at hc2b
        have e1 : (X ++ (m ++ Y)).get? (q + (t.length - 1)) = t.get? (t.length - 1) :=
          hgets (t.length - 1) (by omega)
        have ha1 : q + (t.length - 1) = X.length := by omega
        rw [ha1, hmlook X.length (le_refl _) (by omega)] at e1
        have harith : X.length - X.length = 0 := by omega
        rw [harith, imageMarkdown_get_zero, htl1] at e1
        simp at e1
    · push_neg at hc2
      have hd1 : X.length - q < t.length := by omega
      have hd2 : X.length - q + 1 < t.length := by omega
      have e0 : (X ++ (m ++ Y)).get? (q + (X.length - q)) = t.get? (X.length - q) :=
        hgets (X.length - q) hd1
      have e1 : (X ++ (m ++ Y)).get? (q + (X.length - q + 1)) = t.get? (X.length - q + 1) :=
        hgets (X.length - q + 1) hd2
      have hqd : q + (X.length - q) = X.length := by omega
      have hqd1 : q + (X.length - q + 1) = X.length + 1 := by omega
      rw [hqd, hmlook X.length (le_refl _) (by omega)] at e0
      rw [hqd1, hmlook (X.length + 1) (by omega) (by omega)] at e1
      have ha0 : X.length - X.length = 0 := by omega
      have ha1 : X.length + 1 - X.length = 1 := by omega
      rw [ha0, imageMarkdown_get_zero] at e0
      rw [ha1, imageMarkdown_get_one] at e1
      exact hnb (infix_pair_of_get e0.symm e1.symm)

/-! ## The substitution loop rewrites exactly the match spans -/

theorem processPlaceholders_nil (chapter : Chapter)
    (resolver : Nat → List Char → Option (List Char)) (i : Nat) (content : List Char) :
    processPlaceholders chapter resolver [] i content = content := rfl

theorem processPlaceholders_some (chapter : Chapter)
    (resolver : Nat → List Char → Option (List Char)) (p : Placeholder)
    (rest : List Placeholder) (i : Nat) (content url : List Char)
    (h : resolver i (searchKeyword p chapter) = some url) :
    processPlaceholders chapter resolver (p :: rest) i content =
      processPlaceholders chapter resolver rest (i + 1)
        (replaceFirst content p.path (imageMarkdown (searchKeyword p chapter) url)) := by
  simp only [processPlaceholders, h]

theorem processPlaceholders_none (chapter : Chapter)
    (resolver : Nat → List Char → Option (List Char)) (p : Placeholder)
    (rest : List Placeholder) (i : Nat) (content : List Char)
    (h : resolver i (searchKeyword p chapter) = none) :
    processPlaceholders chapter resolver (p :: rest) i content =
      processPlaceholders chapter resolver rest (i + 1) content := by
  simp only [processPlaceholders, h]

theorem splice_nil (s : List Char) (chapter : Chapter)
    (resolver : Nat → List Char → Option (List Char)) (cur i : Nat) :
    splice s chapter resolver cur i [] = s.drop cur := rfl

theorem splice_some (s : List Char) (chapter : Chapter)
    (resolver : Nat → List Char → Option (List Char)) (p : Placeholder)
    (rest : List Placeholder) (cur i : Nat) (url : List Char)
    (h : resolver i (searchKeyword p chapter) = some url) :
    splice s chapter resolver cur i (p :: rest) =
      (s.drop cur).take (p.pos - cur) ++ imageMarkdown (searchKeyword p chapter) url ++
        splice s chapter resolver (p.pos + p.path.length) (i + 1) rest := by
  simp only [splice, h]

theorem processPlaceholders_main
    (chapter : Chapter) (resolver : Nat → List Char → Option (List Char))
    (s : List Char) (psAll : List Placeholder)
    (Htotal : ∀ i kw, (resolver i kw).isSome = true)
    (Hurl : ∀ i kw url, resolver i kw = some url → NoTwoUnderscores url)
    (Hshape : ∀ p ∈ psAll, TokenShape p.path)
    (Hnb : ∀ p ∈ psAll, ¬ ['!', '['] <:+: p.path)
    (Hocc : ∀ p ∈ psAll, ∀ r, OccursAt s p.path r →
        ∃ p' ∈ psAll, p'.pos = r ∧ p'.path = p.path) :
    ∀ (ps : List Placeholder) (A : List Char) (cur i : Nat),
      (∀ p ∈ ps, pyStrip p.keyword = p.keyword ∧ p.keyword ≠ [] ∧
        ∀ c ∈ p.keyword, c ≠ '_') →
      ps.Pairwise (fun a b => a.pos + a.path.length ≤ b.pos) →
      (∀ p ∈ ps, cur ≤ p.pos) →
      (∀ p ∈ ps, OccursAt s p.path p.pos) →
      (∀ p ∈ psAll, cur ≤ p.pos → p ∈ ps) →
      (∀ p ∈ ps, p ∈ psAll) →
      (∀ p ∈ psAll, ∀ q, OccursAt (A ++ s.drop cur) p.path q →
        ∃ p' ∈ ps, p'.path = p.path ∧ q = A.length + (p'.pos - cur)) →
      processPlaceholders chapter resolver ps i (A ++ s.drop cur)
          = A ++ splice s chapter resolver cur i ps
        ∧ ∀ p ∈ psAll, ∀ q, ¬ OccursAt
            (processPlaceholders chapter resolver ps i (A ++ s.drop cur)) p.path q := by
  intro ps
  induction ps with
  | nil =>
    intro A cur i _ _ _ _ _ _ HINV
    rw [processPlaceholders_nil, splice_nil]
    refine ⟨rfl, ?_⟩
    intro p hp q hq
    obtain ⟨p', hp', _⟩ := HINV p hp q hq
    exact absurd hp' (List.not_mem_nil p')
  | cons p rest ih =>
    intro A cur i Hkw Hpair Hcur Hoccs Hmem Hsub HINV
    have hpAll : p ∈ psAll := Hsub p (by simp)
    have hkwp := Hkw p (by simp)
    have hskw : searchKeyword p chapter = p.keyword := by
      unfold searchKeyword
      rw [hkwp.1]
      simp [List.isEmpty_iff, hkwp.2.1]
    obtain ⟨url, hurlres⟩ : ∃ url, resolver i (searchKeyword p chapter) = some url :=
      Option.isSome_iff_exists.1 (Htotal i (searchKeyword p chapter))
    have hurlok : NoTwoUnderscores url := Hurl i _ url hurlres
    have hkwchars : ∀ c ∈ searchKeyword p chapter, c ≠ '_' := by
      rw [hskw]; exact hkwp.2.2
    set m := imageMarkdown (searchKeyword p chapter) url with hmdef
    set gap := (s.drop cur).take (p.pos - cur) with hgapdef
    have hposle : cur ≤ p.pos := Hcur p (by simp)
    have hoccp : OccursAt s p.path p.pos := Hoccs p (by simp)
    have hshapep : TokenShape p.path := Hshape p hpAll
    have hpathne : p.path ≠ [] := by
      obtain ⟨inner, hpa, _, _⟩ := hshapep
      rw [hpa]; simp
    have hplen : 0 < p.path.length := List.length_pos.2 hpathne
    have hlen : p.pos + p.path.length ≤ s.length := occursAt_length hoccp hpathne
    have hgaplen : gap.length = p.pos - cur := by
      rw [hgapdef, List.length_take, List.length_drop]
      omega
    have hdropcur : s.drop cur = gap ++ (p.path ++ s.drop (p.pos + p.path.length)) := by
      have h1 : s.drop cur = gap ++ (s.drop cur).drop (p.pos - cur) := by
        rw [hgapdef, List.take_append_drop]
      have h2 : (s.drop cur).drop (p.pos - cur) = s.drop p.pos := by
        rw [List.drop_drop]; congr 1; omega
      have h3 : s.drop p.pos = p.path ++ s.drop (p.pos + p.path.length) := by
        obtain ⟨u, hu⟩ := hoccp
        rw [← hu]
        congr 1
        have h4 := congrArg (List.drop p.path.length) hu
        rw [List.drop_left] at h4
        rw [h4, List.drop_drop]
      rw [h1, h2, h3]
    have hC : A ++ s.drop cur = (A ++ gap) ++ (p.path ++ s.drop (p.pos + p.path.length)) := by
      rw [hdropcur, List.append_assoc]
    have hXlen : (A ++ gap).length = A.length + (p.pos - cur) := by
      rw [List.length_append, hgaplen]
    have hoccq0 : OccursAt (A ++ s.drop cur) p.path (A.length + (p.pos - cur)) := by
      have h4 : OccursAt (s.drop cur) p.path (p.pos - cur) := by
        rw [occursAt_drop]
        have h5 : cur + (p.pos - cur) = p.pos := by omega
        rw [h5]; exact hoccp
      exact occursAt_append_right h4
    have hmin : ∀ q' < A.length + (p.pos - cur),
        ¬ OccursAt (A ++ s.drop cur) p.path q' := by
      intro q' hq' hocc'
      obtain ⟨p', hp', hpath', hq'eq⟩ := HINV p hpAll q' hocc'
      rcases List.mem_cons.1 hp' with heq | hp'rest
      · rw [heq] at hq'eq; omega
      · have h6 := (List.pairwise_cons.1 Hpair).1 p' hp'rest
        have h7 := Hcur p' (by simp [hp'rest])
        omega
    have hrepl : replaceFirst (A ++ s.drop cur) p.path m =
        ((A ++ gap) ++ m) ++ s.drop (p.pos + p.path.length) := by
      rw [replaceFirst_of_first_occ p.path m hpathne _ _ hoccq0 hmin]
      have ht : (A ++ s.drop cur).take (A.length + (p.pos - cur)) = A ++ gap := by
        rw [List.take_append, hgapdef]
      have hd : (A ++ s.drop cur).drop (A.length + (p.pos - cur) + p.path.length) =
          s.drop (p.pos + p.path.length) := by
        have h8 : A.length + (p.pos - cur) + p.path.length =
            A.length + ((p.pos - cur) + p.path.length) := by omega
        rw [h8, List.drop_append, List.drop_drop]
        congr 1
        omega
      rw [ht, hd]
    have HINV' : ∀ pt ∈ psAll, ∀ q,
        OccursAt (((A ++ gap) ++ m) ++ s.drop (p.pos + p.path.length)) pt.path q →
        ∃ p' ∈ rest, p'.path = pt.path ∧
          q = ((A ++ gap) ++ m).length + (p'.pos - (p.pos + p.path.length)) := by
      intro pt hpt q hq
      have hptne : pt.path ≠ [] := by
        obtain ⟨inner, hpa, _, _⟩ := Hshape pt hpt
        rw [hpa]; simp
      have hq2 : OccursAt ((A ++ gap) ++ (m ++ s.drop (p.pos + p.path.length))) pt.path q := by
        rw [← List.append_assoc]
        exact hq
      have havoid := occ_avoid_markdown (Hshape pt hpt) (Hnb pt hpt) hkwchars hurlok hq2
      rw [← hmdef] at havoid
      rcases havoid with hl | hr
      · exfalso
        have hX : OccursAt (A ++ gap) pt.path q := occursAt_of_append_left hq2 hl
        have hCocc : OccursAt (A ++ s.drop cur) pt.path q := by
          rw [hC]
          exact occursAt_append_of_left hX
        obtain ⟨p', hp', hpath', hq'eq⟩ := HINV pt hpt q hCocc
        have hptlen : 0 < pt.path.length := List.length_pos.2 hptne
        rcases List.mem_cons.1 hp' with heq | hp'rest
        · rw [heq] at hq'eq hpath'
          rw [← hpath'] at hl
          omega
        · have h6 := (List.pairwise_cons.1 Hpair).1 p' hp'rest
          have h7 := Hcur p' (by simp [hp'rest])
          omega
      · have hYocc : OccursAt (s.drop (p.pos + p.path.length)) pt.path
            (q - ((A ++ gap).length + m.length)) := by
          have h9 : OccursAt (m ++ s.drop (p.pos + p.path.length)) pt.path
              (q - (A ++ gap).length) := occursAt_of_append_right hq2 (by omega)
          have h10 := occursAt_of_append_right h9 (by omega)
          have h11 : q - (A ++ gap).length - m.length =
              q - ((A ++ gap).length + m.length) := by omega
          rw [h11] at h10
          exact h10
        rw [occursAt_drop] at hYocc
        obtain ⟨p', hp'All, hppos, hppath⟩ := Hocc pt hpt _ hYocc
        have hp'cur : p.pos + p.path.length ≤ p'.pos := by omega
        have hp'mem : p' ∈ p :: rest := Hmem p' hp'All (by omega)
        have hp'rest : p' ∈ rest := by
          rcases List.mem_cons.1 hp'mem with heq | h12
          · exfalso; rw [heq] at hp'cur; omega
          · exact h12
        refine ⟨p', hp'rest, hppath, ?_⟩
        have h13 : ((A ++ gap) ++ m).length = (A ++ gap).length + m.length := by
          rw [List.length_append]
        omega
    have Hkw' : ∀ p' ∈ rest, pyStrip p'.keyword = p'.keyword ∧ p'.keyword ≠ [] ∧
        ∀ c ∈ p'.keyword, c ≠ '_' := fun p' h => Hkw p' (by simp [h])
    have Hpair' := (List.pairwise_cons.1 Hpair).2
    have Hcur' : ∀ p' ∈ rest, p.pos + p.path.length ≤ p'.pos :=
      (List.pairwise_cons.1 Hpair).1
    have Hoccs' : ∀ p' ∈ rest, OccursAt s p'.path p'.pos :=
      fun p' h => Hoccs p' (by simp [h])
    have Hmem' : ∀ p' ∈ psAll, p.pos + p.path.length ≤ p'.pos → p' ∈ rest := by
      intro p' h h2
      have h3 := Hmem p' h (by omega)
      rcases List.mem_cons.1 h3 with heq | h4
      · exfalso; rw [heq] at h2; omega
      · exact h4
    have Hsub' : ∀ p' ∈ rest, p' ∈ psAll := fun p' h => Hsub p' (by simp [h])
    obtain ⟨ihEq, ihNo⟩ := ih ((A ++ gap) ++ m) (p.pos + p.path.length) (i + 1)
      Hkw' Hpair' Hcur' Hoccs' Hmem' Hsub' HINV'
    rw [processPlaceholders_some chapter resolver p rest i _ url hurlres]
    rw [← hmdef, hrepl]
    constructor
    · rw [ihEq, splice_some s chapter resolver p rest cur i url hurlres, ← hmdef,
        ← hgapdef]
      simp [List.append_assoc]
    · exact ihNo

theorem noTwoUnderscoresB_iff : ∀ l, noTwoUnderscoresB l = true ↔ NoTwoUnderscores l
  | [] => by simp [noTwoUnderscoresB, NoTwoUnderscores]
  | [a] => by simp [noTwoUnderscoresB, NoTwoUnderscores]
  | a :: b :: rest => by
    unfold NoTwoUnderscores
    rw [noTwoUnderscoresB, Bool.and_eq_true, Bool.or_eq_true,
      noTwoUnderscoresB_iff (b :: rest), List.chain'_cons]
    unfold NoTwoUnderscores
    simp

theorem searchKeyword_extract (content : List Char) (chapter : Chapter)
    (p : Placeholder) (hp : p ∈ extract_image_placeholders content) :
    searchKeyword p chapter = p.keyword := by
  have hkwp := extract_keyword_facts content p hp
  unfold searchKeyword
  rw [hkwp.1]
  simp [List.isEmpty_iff, hkwp.2.1]

theorem tokensIsolated_spec (content : List Char) (h : tokensIsolatedB content = true) :
    ∀ p ∈ extract_image_placeholders content, ∀ r, OccursAt content p.path r →
      ∃ p' ∈ extract_image_placeholders content, p'.pos = r ∧ p'.path = p.path := by
  intro p hp r hocc
  unfold tokensIsolatedB at h
  rw [List.all_eq_true] at h
  have h1 := h p hp
  rw [List.all_eq_true] at h1
  have hne : p.path ≠ [] := by
    obtain ⟨inner, hpa, _, _⟩ := extract_shape content p hp
    rw [hpa]; simp
  have hr : r ∈ List.range (content.length + 1) := by
    rw [List.mem_range]
    have hb := occursAt_length hocc hne
    have : 0 < p.path.length := List.length_pos.2 hne
    omega
  have h2 := h1 r hr
  rw [Bool.or_eq_true] at h2
  rcases h2 with h3 | h3
  · rw [Bool.not_eq_true', decide_eq_false_iff_not] at h3
    exact absurd hocc h3
  · rw [List.any_eq_true] at h3
    obtain ⟨p', hp', hcond⟩ := h3
    rw [Bool.and_eq_true] at hcond
    refine ⟨p', hp', ?_, ?_⟩
    · simpa using hcond.1
    · simpa using hcond.2

theorem processImages_baidu (cfg : ImagesConfig) (chapter : Chapter)
    (content : List Char) (resolver : Nat → List Char → Option (List Char))
    (hen : cfg.enabled = some true)
    (hsrc : cfg.search_source = some ("baidu".toList)) :
    processImages cfg chapter content resolver =
      if (extract_image_placeholders content).isEmpty then content
      else processPlaceholders chapter resolver
        (extract_image_placeholders content) 1 content := by
  by_cases hemp : (extract_image_placeholders content).isEmpty
  · simp [processImages, hemp]
  · simp [processImages, hemp, hen, hsrc, sortByIndex_extract]

theorem processImages_splice (cfg : ImagesConfig) (chapter : Chapter)
    (content : List Char) (resolver : Nat → List Char → Option (List Char))
    (hen : cfg.enabled = some true)
    (hsrc : cfg.search_source = some ("baidu".toList))
    (Htotal : ∀ i kw, (resolver i kw).isSome = true)
    (Hurl : ∀ i kw url, resolver i kw = some url → NoTwoUnderscores url)
    (Hnb : ∀ p ∈ extract_image_placeholders content, ¬ ['!', '['] <:+: p.path)
    (Hiso : tokensIsolatedB content = true) :
    processImages cfg chapter content resolver =
      splice content chapter resolver 0 1 (extract_image_placeholders content)
    ∧ ∀ p ∈ extract_image_placeholders content, ∀ q,
        ¬ OccursAt (processImages cfg chapter content resolver) p.path q := by
  rw [processImages_baidu cfg chapter content resolver hen hsrc]
  by_cases hemp : (extract_image_placeholders content).isEmpty
  · rw [if_pos hemp]
    rw [List.isEmpty_iff] at hemp
    rw [hemp]
    refine ⟨by rw [splice_nil, List.drop_zero], ?_⟩
    intro p hp
    exact absurd hp (List.not_mem_nil p)
  · rw [if_neg hemp]
    have hmain := processPlaceholders_main chapter resolver content
      (extract_image_placeholders content) Htotal Hurl
      (fun p hp => extract_shape content p hp) Hnb
      (tokensIsolated_spec content Hiso)
      (extract_image_placeholders content) [] 0 1
      (fun p hp => extract_keyword_facts content p hp)
      (extract_pairwise_pos content)
      (fun p _ => Nat.zero_le _)
      (fun p hp => extract_occurs content p hp)
      (fun p hp _ => hp)
      (fun p hp => hp)
      ?_
    · rw [List.drop_zero, List.nil_append] at hmain
      exact ⟨by rw [hmain.1, List.nil_append], hmain.2⟩
    · intro p hp q hocc
      rw [List.drop_zero, List.nil_append] at hocc
      obtain ⟨p', hp', hpos, hpath⟩ := tokensIsolated_spec content Hiso p hp q hocc
      exact ⟨p', hp', hpath, by simp; omega⟩

theorem processPlaceholders_all_none (chapter : Chapter)
    (resolver : Nat → List Char → Option (List Char))
    (hres : ∀ i kw, resolver i kw = none) :
    ∀ (ps : List Placeholder) (i : Nat) (content : List Char),
      processPlaceholders chapter resolver ps i content = content := by
  intro ps
  induction ps with
  | nil => intro i content; rfl
  | cons p rest ih =>
    intro i content
    rw [processPlaceholders_none chapter resolver p rest i content (hres _ _)]
    exact ih _ _

/-! ## Claims -/

/-- C1: for every input string, the placeholder extractor returns its
placeholders sorted by strictly increasing document offset of the match
start, and their `sequenceIndex` values are exactly `1..N` in that order. -/
theorem claim_C1 (content : List Char) :
    List.Chain' (· < ·) ((extract_image_placeholders content).map fun p => p.pos) ∧
    (extract_image_placeholders content).map (fun p => p.index) =
      List.range' 1 (extract_image_placeholders content).length := by
  constructor
  · rw [List.chain'_map]
    refine List.Pairwise.chain' ?_
    refine (extract_pairwise_pos content).imp_of_mem ?_
    intro a b ha _ hab
    have hne : a.path ≠ [] := by
      obtain ⟨inner, hpa, _, _⟩ := extract_shape content a ha
      rw [hpa]; simp
    have := List.length_pos.2 hne
    omega
  · exact extract_indices content

/-- C5: for every chapter, configuration and input string, calling the
assembler with images disabled (`enabled = false`) returns the input content
unchanged. -/
theorem claim_C5 (cfg : ImagesConfig) (chapter : Chapter) (content : List Char)
    (resolver : Nat → List Char → Option (List Char))
    (h : cfg.enabled = some false) :
    processImages cfg chapter content resolver = content := by
  by_cases hemp : (extract_image_placeholders content).isEmpty <;>
    simp [processImages, hemp, h]

/-- Witness for C5 at a concrete chapter, configuration and content. -/
theorem claim_C5_witness :
    processImages ⟨some false, some "baidu".toList, none⟩ ⟨1, [], [], []⟩
        "在__周天子东迁__之后".toList (fun _ _ => some "https://x/a.jpg".toList) =
      "在__周天子东迁__之后".toList :=
  claim_C5 _ _ _ _ rfl

/-- C6: for every input string containing no substring matching the
placeholder pattern (with non-empty trimmed keyword), the extractor returns
an empty sequence and the assembler returns the input unchanged (under every
configuration, chapter and resolver). -/
theorem claim_C6 (content : List Char) (h : hasValidTokenB content = false) :
    extract_image_placeholders content = [] ∧
    ∀ (cfg : ImagesConfig) (chapter : Chapter)
      (resolver : Nat → List Char → Option (List Char)),
      processImages cfg chapter content resolver = content := by
  have hbase : placeholderPositions content = [] := by
    unfold placeholderPositions
    rw [List.filterMap_eq_nil]
    intro x hx
    obtain ⟨hle, htm⟩ := scanF_sound content.length content 0 x hx
    rw [Nat.sub_zero] at htm
    obtain ⟨hne, _, after, hdrop⟩ := (tryMatch_some_iff _ _).1 htm
    have hlt : x.1 < content.length := by
      have h1 : (content.drop x.1).length = content.length - x.1 := by
        simp [List.length_drop]
      rw [hdrop] at h1
      simp at h1
      omega
    unfold hasValidTokenB at h
    rw [List.any_eq_false] at h
    have h2 := h x.1 (by rw [List.mem_range]; omega)
    rw [htm] at h2
    simp only [Bool.not_eq_true'] at h2
    simp [h2]
  have hext : extract_image_placeholders content = [] := by
    rw [extract_eq_base, hbase]
    rfl
  refine ⟨hext, ?_⟩
  intro cfg chapter resolver
  simp [processImages, hext]

/-- Witness for C6 at a concrete content without tokens. -/
theorem claim_C6_witness :
    extract_image_placeholders "hello _world_ 在 __ __ here".toList = [] ∧
      processImages ⟨some true, some "baidu".toList, none⟩ ⟨1, [], [], []⟩
        "hello _world_ 在 __ __ here".toList (fun _ _ => some "u".toList) =
      "hello _world_ 在 __ __ here".toList := by
  have h := claim_C6 "hello _world_ 在 __ __ here".toList (by decide)
  exact ⟨h.1, h.2 _ _ _⟩

/-- C7 counterexample: at a placeholder with empty keyword and a chapter with
no keywords, the assembler's fallback search keyword is the literal `"历史"`,
not the literal `"history"` the claim states. -/
theorem claim_C7_counterexample :
    searchKeyword ⟨[], [], 1, 0⟩ ⟨1, [], [], []⟩ ≠ "history".toList ∧
    searchKeyword ⟨[], [], 1, 0⟩ ⟨1, [], [], []⟩ = "历史".toList := by decide

/-- C7 (amended): for every placeholder, the search keyword is the
placeholder's trimmed keyword when that is non-empty; otherwise
`chapter.keywords[(index-1) mod len]` (Python modulo) when the chapter has
keywords; otherwise the literal `"历史"`.  `claimSearchKeyword` restates this
from the amended claim's words. -/
theorem claim_C7_amended (p : Placeholder) (chapter : Chapter) :
    searchKeyword p chapter = claimSearchKeyword p chapter := by
  unfold searchKeyword claimSearchKeyword
  split_ifs with h1 h2 h3 h4 <;>
    simp_all [List.isEmpty_iff]

/-- C8: the "next chapter to generate" selection returns the first chapter in
plan order whose persisted artifact does not exist (`List.find?` restates the
claim's words); it returns nothing when every artifact exists; and for a
5-chapter plan with chapters 1-3 persisted it returns chapter 4. -/
theorem claim_C8 :
    (∀ (f : Int → Bool) (plan : List Chapter),
      getNextChapterToGenerate f plan = plan.find? fun c => !(f c.id)) ∧
    (∀ (f : Int → Bool) (plan : List Chapter),
      (∀ c ∈ plan, f c.id = true) → getNextChapterToGenerate f plan = none) ∧
    getNextChapterToGenerate (fun i => decide (i ≤ 3))
        [⟨1, [], [], []⟩, ⟨2, [], [], []⟩, ⟨3, [], [], []⟩,
         ⟨4, [], [], []⟩, ⟨5, [], [], []⟩] =
      some ⟨4, [], [], []⟩ := by
  have h1 : ∀ (f : Int → Bool) (plan : List Chapter),
      getNextChapterToGenerate f plan = plan.find? fun c => !(f c.id) := by
    intro f plan
    induction plan with
    | nil => rfl
    | cons c rest ih =>
      cases hf : f c.id <;>
        simp [getNextChapterToGenerate, List.find?_cons, hf, ih]
  refine ⟨h1, ?_, by decide⟩
  intro f plan hall
  rw [h1, List.find?_eq_none]
  intro c hc
  simp [hall c hc]

/-- Witness for C8's all-persisted implication at a concrete plan. -/
theorem claim_C8_witness :
    getNextChapterToGenerate (fun _ => true) [⟨1, [], [], []⟩, ⟨2, [], [], []⟩] =
      none :=
  claim_C8.2.1 _ _ (by decide)

/-- C9 counterexample: a content-generation (API) failure is caught inside
`generate_next_chapter`, which returns `False`; `main` ignores the boolean,
so the process exits 0, not 1 as the claim states. -/
theorem claim_C9_counterexample :
    mainExitCode (Except.ok ()) none
        (generateNextChapterResult (some ⟨1, [], [], []⟩) (Except.ok [])
          (Except.error "API request failed".toList) (Except.ok ()))
        (Except.ok false) ≠ 1 := by decide

/-- C9 (amended): the CLI exits 0 on success or nothing-to-do, exits 1 on
initialization failure (missing credentials, malformed config), on an invalid
chapter-id argument, and on an escaping exception (missing prompt template,
persistence failure); but a content-generation failure in the no-argument
path is absorbed (`generate_next_chapter` returns `False`) and the process
exits 0. -/
theorem claim_C9_amended :
    (∀ (e : List Char) (arg : Option (Option Int)) n sp,
      mainExitCode (Except.error e) arg n sp = 1) ∧
    (∀ n sp, mainExitCode (Except.ok ()) (some none) n sp = 1) ∧
    (∀ b sp, mainExitCode (Except.ok ()) none (Except.ok b) sp = 0) ∧
    (∀ e sp, mainExitCode (Except.ok ()) none (Except.error e) sp = 1) ∧
    (∀ (id : Int) n b, mainExitCode (Except.ok ()) (some (some id)) n (Except.ok b) = 0) ∧
    (∀ (ch : Chapter) pr e sv,
      generateNextChapterResult (some ch) (Except.ok pr) (Except.error e) sv =
        Except.ok false) ∧
    (∀ (ch : Chapter) pr e sv sp,
      mainExitCode (Except.ok ())  none
        (generateNextChapterResult (some ch) (Except.ok pr) (Except.error e) sv) sp = 0) :=
  ⟨fun _ _ _ _ => rfl, fun _ _ => rfl, fun _ _ => rfl, fun _ _ => rfl,
    fun _ _ _ => rfl, fun _ _ _ _ => rfl, fun _ _ _ _ _ => rfl⟩

/-- C10: every placeholder produced by the extractor has a non-empty, already
trimmed keyword, so the assembler's fallback branch is never taken and the
search keyword always equals the placeholder's own keyword. -/
theorem claim_C10 (content : List Char) (chapter : Chapter) (p : Placeholder)
    (hp : p ∈ extract_image_placeholders content) :
    p.keyword ≠ [] ∧ pyStrip p.keyword = p.keyword ∧
      searchKeyword p chapter = p.keyword := by
  have h := extract_keyword_facts content p hp
  exact ⟨h.2.1, h.1, searchKeyword_extract content chapter p hp⟩

/-- Witness for C10 at a concrete extracted placeholder. -/
theorem claim_C10_witness :
    (⟨"周天子东迁".toList, "__周天子东迁__".toList, 1, 1⟩ : Placeholder) ∈
        extract_image_placeholders "在__周天子东迁__之后，诸侯坐大。".toList ∧
      searchKeyword ⟨"周天子东迁".toList, "__周天子东迁__".toList, 1, 1⟩ ⟨1, [], [], []⟩ =
        "周天子东迁".toList := by
  have hm : (⟨"周天子东迁".toList, "__周天子东迁__".toList, 1, 1⟩ : Placeholder) ∈
      extract_image_placeholders "在__周天子东迁__之后，诸侯坐大。".toList := by decide
  exact ⟨hm, (claim_C10 _ ⟨1, [], [], []⟩ _ hm).2.2⟩

/-- C2 counterexample: on the input `"__ __A__x_y __A__"` (whose only
extracted placeholder is `__A__`, but whose raw token also occurs overlapping
a discarded empty-keyword match) the resolver returns a URL on every call,
yet the raw token `__A__` still occurs in the output — so "every raw
placeholder token occurrence is replaced and no raw token remains" fails as
stated. -/
theorem claim_C2_counterexample :
    ((extract_image_placeholders "__ __A__x_y __A__".toList).map fun p => p.path) =
        ["__A__".toList] ∧
    (∀ i kw, (((fun (_ : Nat) (_ : List Char) => some "u".toList)) i kw).isSome = true) ∧
    processImages ⟨some true, some "baidu".toList, none⟩ ⟨1, [], [], []⟩
        "__ __A__x_y __A__".toList (fun _ _ => some "u".toList) =
      "__ ![A](u)x_y __A__".toList ∧
    "__A__".toList <:+: processImages ⟨some true, some "baidu".toList, none⟩
        ⟨1, [], [], []⟩ "__ __A__x_y __A__".toList (fun _ _ => some "u".toList) := by
  refine ⟨by decide, fun _ _ => rfl, by decide, by decide⟩

/-- C2 (amended): for every input string and chapter, if the image resolver
returns a URL on every call, no returned URL contains two consecutive
underscores, no raw token contains the substring `![`, and every occurrence
of an extracted raw token in the input starts at an extracted match position,
then the assembler replaces each placeholder's match span exactly once with
`![searchKeyword](url)` (the output is the spliced text) and no raw token
remains in the output.  In particular the scenario
`"在__周天子东迁__之后，诸侯坐大。"` with `resolveImage` returning
`"https://x/a.jpg"` yields
`"在![周天子东迁](https://x/a.jpg)之后，诸侯坐大。"` (see the witness). -/
theorem claim_C2_amended (cfg : ImagesConfig) (chapter : Chapter)
    (content : List Char) (resolver : Nat → List Char → Option (List Char))
    (hen : cfg.enabled = some true)
    (hsrc : cfg.search_source = some ("baidu".toList))
    (Htotal : ∀ i kw, (resolver i kw).isSome = true)
    (Hurl : ∀ i kw url, resolver i kw = some url → NoTwoUnderscores url)
    (Hnb : ∀ p ∈ extract_image_placeholders content, ¬ ['!', '['] <:+: p.path)
    (Hiso : tokensIsolatedB content = true) :
    processImages cfg chapter content resolver =
      splice content chapter resolver 0 1 (extract_image_placeholders content)
    ∧ ∀ p ∈ extract_image_placeholders content, ∀ q,
        ¬ OccursAt (processImages cfg chapter content resolver) p.path q :=
  processImages_splice cfg chapter content resolver hen hsrc Htotal Hurl Hnb Hiso

/-- Witness for C2: the spec's concrete scenario. -/
theorem claim_C2_witness :
    processImages ⟨some true, some "baidu".toList, none⟩ ⟨1, [], [], []⟩
        "在__周天子东迁__之后，诸侯坐大。".toList
        (fun _ _ => some "https://x/a.jpg".toList) =
      "在![周天子东迁](https://x/a.jpg)之后，诸侯坐大。".toList := by
  have h := (claim_C2_amended ⟨some true, some "baidu".toList, none⟩ ⟨1, [], [], []⟩
    "在__周天子东迁__之后，诸侯坐大。".toList
    (fun _ _ => some "https://x/a.jpg".toList) rfl rfl (fun _ _ => rfl)
    (fun i kw url h => by
      have h2 : "https://x/a.jpg".toList = url := by simpa using h
      rw [← h2]; exact (noTwoUnderscoresB_iff _).1 (by decide))
    (by decide) (by decide)).1
  rw [h]
  decide

/-- C3 counterexample: input `"__A__ __A__"` with two placeholder instances
sharing the raw token; the resolver returns two different URLs on successive
calls, the first of which contains the raw token.  The claim predicts the
output `"![A](x__A__y) ![A](u2)"` (first occurrence gets the first URL, the
second the second), but the second substitution hits the token inside the
first URL, so the second instance keeps its raw token. -/
theorem claim_C3_counterexample :
    processImages ⟨some true, some "baidu".toList, none⟩ ⟨1, [], [], []⟩
        "__A__ __A__".toList
        (fun i _ => if i = 1 then some "x__A__y".toList else some "u2".toList) =
      "![A](x![A](u2)y) __A__".toList ∧
    processImages ⟨some true, some "baidu".toList, none⟩ ⟨1, [], [], []⟩
        "__A__ __A__".toList
        (fun i _ => if i = 1 then some "x__A__y".toList else some "u2".toList) ≠
      "![A](x__A__y) ![A](u2)".toList := by
  refine ⟨by decide, by decide⟩

/-- C3 (amended): when the input has exactly two placeholder instances with
the same raw token, the resolver returns a URL on every call (`u1` then `u2`
on the two successive calls), the URLs contain no two consecutive
underscores, no raw token contains `![`, and each raw token occurs only at
extracted match positions, then the first instance receives `u1` and the
second `u2` — first-remaining-occurrence replacement, not a global replace. -/
theorem claim_C3_amended (cfg : ImagesConfig) (chapter : Chapter)
    (content : List Char) (resolver : Nat → List Char → Option (List Char))
    (p1 p2 : Placeholder) (u1 u2 : List Char)
    (hen : cfg.enabled = some true)
    (hsrc : cfg.search_source = some ("baidu".toList))
    (Htotal : ∀ i kw, (resolver i kw).isSome = true)
    (Hurl : ∀ i kw url, resolver i kw = some url → NoTwoUnderscores url)
    (Hnb : ∀ p ∈ extract_image_placeholders content, ¬ ['!', '['] <:+: p.path)
    (Hiso : tokensIsolatedB content = true)
    (hex : extract_image_placeholders content = [p1, p2])
    (hdup : p1.path = p2.path)
    (h1 : resolver 1 p1.keyword = some u1)
    (h2 : resolver 2 p2.keyword = some u2) :
    processImages cfg chapter content resolver =
      content.take p1.pos ++ imageMarkdown p1.keyword u1 ++
        (content.drop (p1.pos + p1.path.length)).take
          (p2.pos - (p1.pos + p1.path.length)) ++
        imageMarkdown p2.keyword u2 ++
        content.drop (p2.pos + p2.path.length) := by
  have hmem1 : p1 ∈ extract_image_placeholders content := by rw [hex]; simp
  have hmem2 : p2 ∈ extract_image_placeholders content := by rw [hex]; simp
  have hk1 : searchKeyword p1 chapter = p1.keyword :=
    searchKeyword_extract content chapter p1 hmem1
  have hk2 : searchKeyword p2 chapter = p2.keyword :=
    searchKeyword_extract content chapter p2 hmem2
  have hsp := (processImages_splice cfg chapter content resolver hen hsrc
    Htotal Hurl Hnb Hiso).1
  rw [hsp, hex]
  rw [splice_some content chapter resolver p1 [p2] 0 1 u1 (by rw [hk1]; exact h1)]
  rw [splice_some content chapter resolver p2 [] (p1.pos + p1.path.length) 2 u2
    (by rw [hk2]; exact h2)]
  rw [splice_nil, hk1, hk2]
  simp [List.append_assoc]

/-- Witness for C3: two same-token placeholders with two distinct benign
URLs; the first instance receives the first URL and the second the second. -/
theorem claim_C3_witness :
    processImages ⟨some true, some "baidu".toList, none⟩ ⟨1, [], [], []⟩
        "__A__ and __A__".toList
        (fun i _ => if i = 1 then some "https://a/1.jpg".toList
          else some "https://a/2.jpg".toList) =
      "![A](https://a/1.jpg) and ![A](https://a/2.jpg)".toList := by
  have h := claim_C3_amended ⟨some true, some "baidu".toList, none⟩ ⟨1, [], [], []⟩
    "__A__ and __A__".toList
    (fun i _ => if i = 1 then some "https://a/1.jpg".toList
      else some "https://a/2.jpg".toList)
    ⟨"A".toList, "__A__".toList, 1, 0⟩ ⟨"A".toList, "__A__".toList, 2, 10⟩
    "https://a/1.jpg".toList "https://a/2.jpg".toList
    rfl rfl
    (fun i kw => by by_cases hi : i = 1 <;> simp [hi])
    (fun i kw url h => by
      by_cases hi : i = 1 <;> simp [hi] at h <;> rw [← h] <;>
        exact (noTwoUnderscoresB_iff _).1 (by decide))
    (by decide) (by decide) (by decide) (by decide) (by decide) (by decide)
  rw [h]
  decide

/-- C4 counterexample: with images enabled but a non-`"baidu"` search source,
the assembler runs a legacy URL-rewrite pass even though the resolver is
never consulted, so with a resolver that returns no URL on every call the
output differs from the input. -/
theorem claim_C4_counterexample :
    processImages ⟨some true, some "other".toList, none⟩ ⟨1, [], [], []⟩
        "__A__ https://images/a.jpg".toList (fun _ _ => none) =
      "__A__ images/a.jpg".toList ∧
    processImages ⟨some true, some "other".toList, none⟩ ⟨1, [], [], []⟩
        "__A__ https://images/a.jpg".toList (fun _ _ => none) ≠
      "__A__ https://images/a.jpg".toList := by
  refine ⟨by decide, by decide⟩

/-- C4 (amended): for every input string, chapter and configuration whose
image search source is `"baidu"`, if the resolver returns no URL on every
call then the assembler's output is identical to its input: every raw token
is left untouched and the run completes. -/
theorem claim_C4_amended (cfg : ImagesConfig) (chapter : Chapter)
    (content : List Char) (resolver : Nat → List Char → Option (List Char))
    (hsrc : cfg.search_source = some ("baidu".toList))
    (hres : ∀ i kw, resolver i kw = none) :
    processImages cfg chapter content resolver = content := by
  by_cases hemp : (extract_image_placeholders content).isEmpty
  · simp [processImages, hemp]
  · rcases hen : cfg.enabled with _ | b
    · simp [processImages, hemp, hen]
    · cases b
      · simp [processImages, hemp, hen]
      · rw [processImages_baidu cfg chapter content resolver hen hsrc, if_neg hemp]
        exact processPlaceholders_all_none chapter resolver hres _ _ _

/-- Witness for C4 at a concrete input with a placeholder. -/
theorem claim_C4_witness :
    processImages ⟨some true, some "baidu".toList, none⟩ ⟨1, [], [], []⟩
        "x __A__ y".toList (fun _ _ => none) = "x __A__ y".toList :=
  claim_C4_amended _ _ _ _ rfl (fun _ _ => rfl)

end Chronicle
